import Mathlib

/-!
Verification of the stealth-guard policy / bypass engine.

JavaScript strings are modelled as `List Char` (`Str`); machine timestamps
(milliseconds since epoch, from `Date.now()`) as `Nat`.  Each definition below
is a shallow embedding of the correspondingly named function of the source
(`src/lib/domainFilter.js`, `src/background.js`, `src/lib/proxy.js`,
`src/content-scripts/injector.js`).
-/

namespace StealthGuard

/-- JavaScript strings as lists of characters. -/
abbrev Str := List Char

/-- Convenience conversion from Lean string literals. -/
def str (s : String) : Str := s.data

/-- Whitespace test used to model `String.prototype.trim`. -/
def isWS (c : Char) : Bool := c.isWhitespace

/-- Model of `String.prototype.toLowerCase` (character-wise). -/
def sLower (l : Str) : Str := l.map Char.toLower

/-- Drop leading whitespace (left part of `trim`). -/
def ltrim (l : Str) : Str := l.dropWhile isWS

/-- Drop trailing whitespace (right part of `trim`). -/
def rtrim (l : Str) : Str := (l.reverse.dropWhile isWS).reverse

/-- Model of `String.prototype.trim`. -/
def jsTrim (l : Str) : Str := ltrim (rtrim l)

/-- Model of `String.prototype.split(sep)` for a one-character separator:
splits at every occurrence, keeping empty pieces. -/
def splitOnChar (sep : Char) : Str → List Str
  | [] => [[]]
  | c :: cs =>
    if c = sep then [] :: splitOnChar sep cs
    else
      match splitOnChar sep cs with
      | [] => [[c]]
      | g :: gs => (c :: g) :: gs

/-- Model of `Array.prototype.join` with a (string) separator. -/
def joinSep (sep : Str) : List Str → Str
  | [] => []
  | [t] => t
  | t :: t' :: ts => t ++ sep ++ joinSep sep (t' :: ts)

/-- The token pipeline `s.split(",").map(t => t.trim()).filter(Boolean)`
that every allowlist-handling function of the source applies. -/
def tokensOf (l : Str) : List Str :=
  ((splitOnChar ',' l).map jsTrim).filter (fun t => !t.isEmpty)

/-- Apply `f` to the last element of a list (helper for reasoning about
`splitOnChar` on appended strings). -/
def modifyLast (f : Str → Str) : List Str → List Str
  | [] => []
  | [g] => [f g]
  | g :: g' :: gs => g :: modifyLast f (g' :: gs)

/- ### DomainFilter (src/lib/domainFilter.js) -/

/-- `DomainFilter.matchesPattern`: hostname-against-pattern matching with
exact / trailing `.*` / leading `*.` / leading `*` / www-alias rules.
The sequential early-return structure of the source is encoded as a
disjunction in the same order. -/
def matchesPattern (hostname pat : Str) : Bool :=
  let h := sLower hostname
  let p := sLower pat
  (h == p) ||
  (List.isSuffixOf [ '.', '*' ] p &&
    List.isPrefixOf (p.take (p.length - 2) ++ [ '.' ]) h) ||
  (if List.isPrefixOf [ '*', '.' ] p then
    (h == p.drop 2) || List.isSuffixOf ( '.' :: p.drop 2) h
   else if List.isPrefixOf [ '*' ] p then
    (h == p.drop 1) || List.isSuffixOf ( '.' :: p.drop 1) h
   else false) ||
  (!p.contains '*' && h == str "www." ++ p)

/-- `DomainFilter.isWhitelisted`: true when the hostname matches any
comma-separated pattern of the allowlist string. -/
def isWhitelisted (hostname ws : Str) : Bool :=
  if ws.isEmpty || (jsTrim ws).isEmpty then false
  else (tokensOf ws).any (fun p => matchesPattern hostname p)

/-- One feature section of the configuration: `{enabled, whitelist}`.
`whitelist` is optional, mirroring `config[featureName].whitelist || ""`. -/
structure FeatureConfig where
  enabled : Bool
  whitelist : Option Str
deriving DecidableEq

/-- The configuration slice `DomainFilter.shouldActivateFeature` reads:
the global flag, the global allowlist and the per-feature sections
(an association list indexed by feature name; an absent name models a
falsy `config[featureName]`). -/
structure Config where
  enabled : Bool
  globalWhitelist : Str
  features : List (Str × FeatureConfig)
deriving DecidableEq

/-- A URL as seen through `new URL(url).hostname`: `none` models a parse
failure, `some h` the parsed hostname (possibly empty). -/
abbrev Url := Option Str

/-- `DomainFilter.extractHostname`. -/
def extractHostname (url : Url) : Option Str := url

/-- `DomainFilter.shouldActivateFeature`: the 4-tier precedence chain
global flag → feature flag → hostname → global allowlist → feature
allowlist. -/
def shouldActivateFeature (cfg : Config) (url : Url) (featureName : Str) : Bool :=
  if !cfg.enabled then false
  else
    match List.lookup featureName cfg.features with
    | none => false
    | some fc =>
      if !fc.enabled then false
      else
        match extractHostname url with
        | none => false
        | some hostname =>
          if hostname.isEmpty then false
          else if isWhitelisted hostname cfg.globalWhitelist then false
          else if isWhitelisted hostname (fc.whitelist.getD []) then false
          else true

/-- `DomainFilter.isDomainInWhitelist`: exact-token membership,
case-insensitive. -/
def isDomainInWhitelist (domain ws : Str) : Bool :=
  if ws.isEmpty || domain.isEmpty then false
  else (tokensOf ws).any (fun d => sLower d == sLower domain)

/-- `DomainFilter.addDomainToWhitelist`: append `"*." + domain` unless the
domain is already present as an exact token. -/
def addDomainToWhitelist (domain ws : Str) : Str :=
  if domain.isEmpty then ws
  else if isDomainInWhitelist domain ws then ws
  else
    let entry := '*' :: '.' :: domain
    if ws.isEmpty || (jsTrim ws).isEmpty then entry
    else jsTrim ws ++ ( ',' :: ' ' :: entry)

/-- `DomainFilter.removeDomainFromWhitelist`: drop the bare and the
`*.`-wildcard token for the domain (case-insensitive) and re-join. -/
def removeDomainFromWhitelist (domain ws : Str) : Str :=
  if domain.isEmpty || ws.isEmpty then ws
  else
    let filtered := (tokensOf ws).filter (fun d =>
      !(sLower d == sLower domain) && !(sLower d == '*' :: '.' :: sLower domain))
    joinSep [ ',', ' ' ] filtered

/-- `mergeWhitelists` (lib/config variants): user entries first, then the
default entries not already present case-insensitively. -/
def mergeWhitelists (defaultW userW : Str) : Str :=
  let defaultEntries := tokensOf defaultW
  let userEntries := tokensOf userW
  let merged := userEntries ++ defaultEntries.filter (fun e =>
    !(userEntries.any (fun u => sLower u == sLower e)))
  joinSep [ ',', ' ' ] merged

/- ### Injector pattern matcher (src/content-scripts/injector.js,
`isDomainWhitelisted`) -/

/-- Line terminators that the JavaScript regex `.` does not match. -/
def isLineTerm (c : Char) : Bool :=
  c == '\n' || c == '\r' || c == '\u2028' || c == '\u2029'

/-- Semantics of the anchored regular expression that the injector compiles
from a wildcard pattern: every regex metacharacter except `*` is escaped
(hence literal) and each `*` becomes `.*`.  `globMatch p h` holds exactly
when `h` matches `^p'$` where `p'` is that compilation of `p`. -/
def globMatch : Str → Str → Bool
  | [], hs => hs.isEmpty
  | c :: ps, hs =>
    if c == '*' then
      (List.range (hs.length + 1)).any (fun n =>
        (hs.take n).all (fun ch => !isLineTerm ch) && globMatch ps (hs.drop n))
    else
      match hs with
      | [] => false
      | h :: hs' => c == h && globMatch ps hs'

/-- `indexOf("*", 1) === -1` combined with the two leading-shape tests:
the pattern is a single leading `*` (not `*.`) followed by a literal. -/
def hasOnlyLeadingWildcard (p : Str) : Bool :=
  List.isPrefixOf [ '*' ] p && !List.isPrefixOf [ '*', '.' ] p &&
    !(p.drop 1).contains '*'

/-- The per-pattern test inside the injector's `isDomainWhitelisted`
(the "full canonical implementation" of the matcher, including the
generic-wildcard regex branch that `DomainFilter.matchesPattern` lacks). -/
def injectorPatternMatches (hostname pat : Str) : Bool :=
  let h := sLower hostname
  let p := sLower pat
  (h == p) ||
  (List.isSuffixOf [ '.', '*' ] p &&
    List.isPrefixOf (p.take (p.length - 2) ++ [ '.' ]) h) ||
  (if List.isPrefixOf [ '*', '.' ] p then
    (h == p.drop 2) || List.isSuffixOf ( '.' :: p.drop 2) h
   else if hasOnlyLeadingWildcard p then
    (h == p.drop 1) || List.isSuffixOf ( '.' :: p.drop 1) h
   else false) ||
  (p.contains '*' && !List.isSuffixOf [ '.', '*' ] p &&
    !List.isPrefixOf [ '*', '.' ] p && !hasOnlyLeadingWildcard p &&
    globMatch p h) ||
  (!p.contains '*' && h == str "www." ++ p)

/- ### Turnstile bypass state machine (src/background.js) -/

/-- `TURNSTILE_BYPASS_TTL_MS = 3 * 60 * 1000`. -/
def TURNSTILE_BYPASS_TTL_MS : Nat := 3 * 60 * 1000

/-- The in-memory `turnstileTimestamps` object: hostname → detection time
(insertion-ordered, keys unique). -/
abbrev TMap := List (Str × Nat)

/-- JavaScript object key update: overwrite in place, else append. -/
def insertTS (h : Str) (t : Nat) (m : TMap) : TMap :=
  if m.any (fun p => p.1 == h) then
    m.map (fun p => if p.1 == h then (p.1, t) else p)
  else m ++ [(h, t)]

/-- JavaScript `delete turnstileTimestamps[hostname]`. -/
def eraseTS (h : Str) (m : TMap) : TMap :=
  m.filter (fun p => !(p.1 == h))

/-- `pruneExpiredTurnstileEntries`: drop every entry whose age reached the
TTL. -/
def pruneExpiredTurnstileEntries (now : Nat) (m : TMap) : TMap :=
  m.filter (fun p => now - p.2 < TURNSTILE_BYPASS_TTL_MS)

/-- A JS string-or-nullish value is falsy when absent or empty. -/
def jsStrFalsy : Option Str → Bool
  | none => true
  | some s => s.isEmpty

/-- `resolveTabHostname(sender, fallback)`: prefer a truthy hostname parsed
from the sender's tab URL, else the fallback. -/
def resolveTabHostname (senderHostname fallback : Option Str) : Option Str :=
  match senderHostname with
  | some h => if h.isEmpty then fallback else some h
  | none => fallback

/-- Result of `getExactTurnstileBypass`. -/
structure BypassInfo where
  active : Bool
  remainingMs : Nat
deriving DecidableEq

/-- `getExactTurnstileBypass(hostname)`: exact-hostname lookup with lazy
expiry (an entry at or past the TTL is deleted).  A stored timestamp of `0`
is falsy in JS and hence treated as absent.  Returns the result together
with the updated map (the source mutates the global object). -/
def getExactTurnstileBypass (now : Nat) (h : Str) (m : TMap) : BypassInfo × TMap :=
  if h.isEmpty then (⟨false, 0⟩, m)
  else
    match List.lookup h m with
    | none => (⟨false, 0⟩, m)
    | some ts =>
      if ts = 0 then (⟨false, 0⟩, m)
      else if TURNSTILE_BYPASS_TTL_MS ≤ now - ts then (⟨false, 0⟩, eraseTS h m)
      else (⟨true, TURNSTILE_BYPASS_TTL_MS - (now - ts)⟩, m)

/-- Result of `getTurnstileBypassIncludingParents`. -/
structure ParentBypassInfo where
  active : Bool
  matchedDomain : Option Str
  remainingMs : Nat
deriving DecidableEq

/-- The label-suffix walk inside `getTurnstileBypassIncludingParents`:
for each `i`, test `labels.slice(i).join(".")`, most specific first. -/
def walkSuffixes (now : Nat) (labels : List Str) (m : TMap) : ParentBypassInfo × TMap :=
  match labels with
  | [] => (⟨false, none, 0⟩, m)
  | _ :: rest =>
    let domain := joinSep [ '.' ] labels
    let (b, m1) := getExactTurnstileBypass now domain m
    if b.active then (⟨true, some domain, b.remainingMs⟩, m1)
    else walkSuffixes now rest m1

/-- `getTurnstileBypassIncludingParents(hostname)`: prune expired entries,
then walk the hostname's label-suffixes from most specific to root. -/
def getTurnstileBypassIncludingParents (now : Nat) (h? : Option Str) (m : TMap) :
    ParentBypassInfo × TMap :=
  if jsStrFalsy h? then (⟨false, none, 0⟩, m)
  else
    let h := h?.getD []
    let m1 := pruneExpiredTurnstileEntries now m
    walkSuffixes now (splitOnChar '.' h) m1

/-- Response object of `handleTurnstileDetectedMessage`. -/
structure DetectResult where
  success : Bool
  ignored : Bool
  error : Option Str
deriving DecidableEq

/-- The literal `"Missing hostname"` error string. -/
def missingHostnameMsg : Str := str "Missing hostname"

/-- `handleTurnstileDetectedMessage`.  The third component records whether
the reapply-User-Agent/reload side effects were triggered. -/
def handleTurnstileDetectedMessage (now : Nat)
    (senderHostname requestHostname : Option Str) (m : TMap) :
    DetectResult × TMap × Bool :=
  let hostname? := resolveTabHostname senderHostname requestHostname
  if jsStrFalsy hostname? then
    (⟨false, false, some missingHostnameMsg⟩, m, false)
  else
    let h := hostname?.getD []
    let (bypass, m1) := getExactTurnstileBypass now h m
    if bypass.active then (⟨true, true, none⟩, m1, false)
    else
      let m2 := pruneExpiredTurnstileEntries now (insertTS h now m1)
      (⟨true, false, none⟩, m2, true)

/-- Response object of `handleCheckTurnstileStatusMessage`
(`remainingSeconds` is absent when no bypass is active). -/
structure StatusResult where
  skipUA : Bool
  remainingSeconds : Option Nat
deriving DecidableEq

/-- `handleCheckTurnstileStatusMessage`:
`remainingSeconds = Math.ceil(remainingMs / 1000)`. -/
def handleCheckTurnstileStatusMessage (now : Nat)
    (senderHostname requestHostname : Option Str) (m : TMap) :
    StatusResult × TMap :=
  let hostname? := resolveTabHostname senderHostname requestHostname
  let (info, m1) := getTurnstileBypassIncludingParents now hostname? m
  if info.active then (⟨true, some ((info.remainingMs + 999) / 1000)⟩, m1)
  else (⟨false, none⟩, m1)

/- ### Proxy profiles (src/lib/proxy.js) -/

/-- A proxy profile record. -/
structure ProxyProfile where
  name : Str
  host : Str
  port : Nat
  scheme : Str
  remoteDNS : Bool
deriving DecidableEq

/-- A domain routing rule `{pattern, profile}`. -/
structure ProxyRoute where
  pattern : Str
  profile : Str
deriving DecidableEq

/-- The `config.proxy` section as far as `removeProxyProfile` reads it. -/
structure ProxyConfig where
  enabled : Bool
  activeProfile : Option Str
  profiles : List ProxyProfile
  domainRoutes : List ProxyRoute
deriving DecidableEq

/-- `removeProxyProfile(profileName)`: drop matching profiles, disable the
proxy and clear the active profile when it was the removed one, and drop
every route referencing the removed profile. -/
def removeProxyProfile (profileName : Str) (cfg : ProxyConfig) : ProxyConfig :=
  let profiles := cfg.profiles.filter (fun p => !(p.name == profileName))
  let clearActive := cfg.activeProfile == some profileName
  { enabled := if clearActive then false else cfg.enabled
    activeProfile := if clearActive then none else cfg.activeProfile
    profiles := profiles
    domainRoutes := cfg.domainRoutes.filter (fun r => !(r.profile == profileName)) }

/-! ### Lemmas about splitting and joining -/

theorem splitOnChar_ne_nil (sep : Char) (l : Str) : splitOnChar sep l ≠ [] := by
  cases l with
  | nil => simp [splitOnChar]
  | cons c cs =>
    by_cases h : c = sep
    · simp [splitOnChar, h]
    · simp only [splitOnChar, if_neg h]
      cases hs : splitOnChar sep cs <;> simp

theorem splitOnChar_cons_sep (sep : Char) (l : Str) :
    splitOnChar sep (sep :: l) = [] :: splitOnChar sep l := by
  simp [splitOnChar]

theorem splitOnChar_cons_ne (sep c : Char) (l : Str) (h : c ≠ sep) :
    splitOnChar sep (c :: l) =
      (c :: (splitOnChar sep l).headI) :: (splitOnChar sep l).tail := by
  simp only [splitOnChar, if_neg h]
  cases hs : splitOnChar sep l with
  | nil => exact absurd hs (splitOnChar_ne_nil sep l)
  | cons g gs => simp

theorem splitOnChar_append_sep (sep : Char) (a b : Str) :
    splitOnChar sep (a ++ sep :: b) = splitOnChar sep a ++ splitOnChar sep b := by
  induction a with
  | nil => simp [splitOnChar_cons_sep, splitOnChar]
  | cons c a ih =>
    by_cases h : c = sep
    · subst h
      simp only [List.cons_append, splitOnChar_cons_sep, ih, List.cons_append]
    · simp only [List.cons_append, splitOnChar_cons_ne sep c _ h, ih]
      cases hs : splitOnChar sep a with
      | nil => exact absurd hs (splitOnChar_ne_nil sep a)
      | cons g gs => simp

theorem splitOnChar_of_no_sep (sep : Char) (l : Str) (h : ∀ c ∈ l, c ≠ sep) :
    splitOnChar sep l = [l] := by
  induction l with
  | nil => rfl
  | cons c cs ih =>
    have hc : c ≠ sep := h c (List.mem_cons_self c cs)
    rw [splitOnChar_cons_ne sep c cs hc, ih (fun x hx => h x (List.mem_cons_of_mem c hx))]
    simp

theorem mem_of_mem_splitOnChar (sep : Char) (l g : Str) (hg : g ∈ splitOnChar sep l)
    (c : Char) (hc : c ∈ g) : c ∈ l ∧ c ≠ sep := by
  induction l generalizing g with
  | nil =>
    simp only [splitOnChar, List.mem_singleton] at hg
    subst hg
    simp at hc
  | cons d ds ih =>
    by_cases hd : d = sep
    · subst hd
      rw [splitOnChar_cons_sep] at hg
      rcases List.mem_cons.mp hg with h1 | h1
      · subst h1; simp at hc
      · obtain ⟨h2, h3⟩ := ih g h1 hc
        exact ⟨List.mem_cons_of_mem _ h2, h3⟩
    · rw [splitOnChar_cons_ne sep d ds hd] at hg
      cases hs : splitOnChar sep ds with
      | nil => exact absurd hs (splitOnChar_ne_nil sep ds)
      | cons g0 gs =>
        rw [hs] at hg
        simp only [List.headI, List.tail] at hg
        rcases List.mem_cons.mp hg with h1 | h1
        · subst h1
          rcases List.mem_cons.mp hc with h2 | h2
          · subst h2; exact ⟨List.mem_cons_self c ds, hd⟩
          · obtain ⟨h3, h4⟩ := ih g0 (by rw [hs]; exact List.mem_cons_self g0 gs) h2
            exact ⟨List.mem_cons_of_mem _ h3, h4⟩
        · obtain ⟨h3, h4⟩ := ih g (by rw [hs]; exact List.mem_cons_of_mem g0 h1) hc
          exact ⟨List.mem_cons_of_mem _ h3, h4⟩

theorem joinSep_cons_of_ne_nil (s : Str) (x : Str) (ls : List Str) (h : ls ≠ []) :
    joinSep s (x :: ls) = x ++ s ++ joinSep s ls := by
  cases ls with
  | nil => exact absurd rfl h
  | cons y ys => rfl

theorem joinSep_splitOnChar (sep : Char) (l : Str) :
    joinSep [sep] (splitOnChar sep l) = l := by
  induction l with
  | nil => rfl
  | cons c cs ih =>
    by_cases h : c = sep
    · subst h
      rw [splitOnChar_cons_sep,
        joinSep_cons_of_ne_nil _ _ _ (splitOnChar_ne_nil c cs), ih]
      rfl
    · rw [splitOnChar_cons_ne sep c cs h]
      cases hs : splitOnChar sep cs with
      | nil => exact absurd hs (splitOnChar_ne_nil sep cs)
      | cons g gs =>
        rw [hs] at ih
        simp only [List.headI, List.tail]
        cases gs with
        | nil => simpa [joinSep] using congrArg (c :: ·) ih
        | cons g' gs' =>
          rw [joinSep_cons_of_ne_nil _ _ _ (List.cons_ne_nil g' gs')] at ih
          rw [joinSep_cons_of_ne_nil _ _ _ (List.cons_ne_nil g' gs')]
          simpa using congrArg (c :: ·) ih

theorem splitOnChar_append_no_sep (sep : Char) (x b : Str) (hb : ∀ c ∈ b, c ≠ sep) :
    splitOnChar sep (x ++ b) = modifyLast (· ++ b) (splitOnChar sep x) := by
  induction x with
  | nil =>
    simp only [List.nil_append, splitOnChar, splitOnChar_of_no_sep sep b hb, modifyLast]
  | cons c x ih =>
    by_cases h : c = sep
    · subst h
      rw [List.cons_append, splitOnChar_cons_sep, splitOnChar_cons_sep, ih]
      cases hs : splitOnChar c x with
      | nil => exact absurd hs (splitOnChar_ne_nil c x)
      | cons g gs => simp [modifyLast]
    · rw [List.cons_append, splitOnChar_cons_ne sep c _ h, splitOnChar_cons_ne sep c _ h, ih]
      cases hs : splitOnChar sep x with
      | nil => exact absurd hs (splitOnChar_ne_nil sep x)
      | cons g gs =>
        cases gs with
        | nil => simp [modifyLast]
        | cons g' gs' =>
          simp only [modifyLast, List.headI, List.tail]

/-! ### Lemmas about trimming -/

theorem dropWhile_append_of_all {p : Char → Bool} {u : Str} (v : Str)
    (h : ∀ c ∈ u, p c = true) : List.dropWhile p (u ++ v) = List.dropWhile p v := by
  induction u with
  | nil => rfl
  | cons c u ih =>
    rw [List.cons_append, List.dropWhile_cons_of_pos (h c (List.mem_cons_self c u))]
    exact ih (fun x hx => h x (List.mem_cons_of_mem c hx))

theorem dropWhile_head_false {p : Char → Bool} {l t : Str} {c : Char}
    (h : List.dropWhile p l = c :: t) : p c = false := by
  induction l with
  | nil => simp at h
  | cons d ds ih =>
    by_cases hd : p d
    · rw [List.dropWhile_cons_of_pos hd] at h
      exact ih h
    · rw [List.dropWhile_cons_of_neg hd] at h
      cases h
      exact Bool.of_not_eq_true hd

theorem dropWhile_of_head_false {p : Char → Bool} {l : Str} {c : Char} {t : Str}
    (hl : l = c :: t) (hc : p c = false) : List.dropWhile p l = l := by
  subst hl
  have hnc : ¬p c = true := by simp [hc]
  rw [List.dropWhile_cons_of_neg hnc]

theorem rtrim_decomp (l : Str) :
    ∃ b, l = rtrim l ++ b ∧ ∀ c ∈ b, isWS c = true := by
  refine ⟨(l.reverse.takeWhile isWS).reverse, ?_, ?_⟩
  · conv_lhs => rw [← l.reverse_reverse,
      ← List.takeWhile_append_dropWhile (p := isWS) (l := l.reverse),
      List.reverse_append]
    rfl
  · intro c hc
    rw [List.mem_reverse] at hc
    exact List.mem_takeWhile_imp hc

theorem ltrim_decomp (l : Str) :
    ∃ a, l = a ++ ltrim l ∧ ∀ c ∈ a, isWS c = true := by
  refine ⟨l.takeWhile isWS, ?_, ?_⟩
  · rw [ltrim, List.takeWhile_append_dropWhile]
  · intro c hc
    exact List.mem_takeWhile_imp hc

theorem jsTrim_decomp (l : Str) :
    ∃ a b, l = a ++ jsTrim l ++ b ∧ (∀ c ∈ a, isWS c = true) ∧ ∀ c ∈ b, isWS c = true := by
  obtain ⟨b, hb, hbws⟩ := rtrim_decomp l
  obtain ⟨a, ha, haws⟩ := ltrim_decomp (rtrim l)
  exact ⟨a, b, by rw [jsTrim, ← ha, ← hb], haws, hbws⟩

theorem mem_of_mem_jsTrim {l : Str} {c : Char} (h : c ∈ jsTrim l) : c ∈ l := by
  obtain ⟨a, b, hl, -, -⟩ := jsTrim_decomp l
  rw [hl]
  simp [h]

theorem jsTrim_eq_nil_iff (l : Str) : jsTrim l = [] ↔ ∀ c ∈ l, isWS c = true := by
  constructor
  · intro h c hc
    obtain ⟨a, b, hl, haws, hbws⟩ := jsTrim_decomp l
    rw [hl, h] at hc
    simp only [List.append_nil, List.mem_append] at hc
    rcases hc with h1 | h1
    · exact haws c h1
    · exact hbws c h1
  · intro h
    have h1 : ∀ c ∈ rtrim l, isWS c = true := by
      intro c hc
      obtain ⟨b, hb, -⟩ := rtrim_decomp l
      exact h c (by rw [hb]; exact List.mem_append_left b hc)
    rw [jsTrim, ltrim, List.dropWhile_eq_nil_iff]
    intro x hx
    exact h1 x hx

theorem jsTrim_head_not_ws {l t : Str} {c : Char} (h : jsTrim l = c :: t) :
    isWS c = false :=
  dropWhile_head_false h

theorem rtrim_eq_self {l : Str} (h : ∀ c ∈ l, isWS c = false) : rtrim l = l := by
  cases hr : l.reverse with
  | nil =>
    have : l = [] := by simpa using congrArg List.reverse hr
    simp [rtrim, this]
  | cons c t =>
    have hc : c ∈ l := by
      rw [← List.mem_reverse, hr]
      exact List.mem_cons_self c t
    show (List.dropWhile isWS l.reverse).reverse = l
    rw [dropWhile_of_head_false hr (h c hc), List.reverse_reverse]

theorem jsTrim_eq_self {l : Str} (h : ∀ c ∈ l, isWS c = false) : jsTrim l = l := by
  show ltrim (rtrim l) = l
  rw [rtrim_eq_self h]
  show List.dropWhile isWS l = l
  cases hl : l with
  | nil => rfl
  | cons c t =>
    exact dropWhile_of_head_false rfl (h c (by rw [hl]; exact List.mem_cons_self c t))

theorem rtrim_append_ws {l b : Str} (h : ∀ c ∈ b, isWS c = true) :
    rtrim (l ++ b) = rtrim l := by
  rw [rtrim, rtrim, List.reverse_append,
    dropWhile_append_of_all l.reverse (fun c hc => h c (List.mem_reverse.mp hc))]

theorem jsTrim_append_ws {l b : Str} (h : ∀ c ∈ b, isWS c = true) :
    jsTrim (l ++ b) = jsTrim l := by
  show ltrim (rtrim (l ++ b)) = jsTrim l
  rw [rtrim_append_ws h]
  rfl

theorem ltrim_cons_ws {l : Str} {c : Char} (h : isWS c = true) :
    ltrim (c :: l) = ltrim l := by
  show List.dropWhile isWS (c :: l) = ltrim l
  rw [List.dropWhile_cons_of_pos h]
  rfl

theorem rtrim_cons (c : Char) (l : Str) :
    rtrim (c :: l) =
      if rtrim l = [] then (if isWS c then [] else [c]) else c :: rtrim l := by
  have key : ∀ u : Str, List.dropWhile isWS (u ++ [c]) =
      if (List.dropWhile isWS u).isEmpty then List.dropWhile isWS [c]
      else List.dropWhile isWS u ++ [c] := by
    intro u
    induction u with
    | nil => simp
    | cons d ds ih =>
      by_cases hd : isWS d
      · rw [List.cons_append, List.dropWhile_cons_of_pos hd,
          List.dropWhile_cons_of_pos hd, ih]
      · rw [List.cons_append, List.dropWhile_cons_of_neg hd,
          List.dropWhile_cons_of_neg hd]
        simp
  have hrew : rtrim (c :: l) =
      (if (List.dropWhile isWS l.reverse).isEmpty then List.dropWhile isWS [c]
       else List.dropWhile isWS l.reverse ++ [c]).reverse := by
    show (List.dropWhile isWS (c :: l).reverse).reverse = _
    rw [List.reverse_cons, key l.reverse]
  rw [hrew]
  by_cases hr : rtrim l = []
  · have h0 : List.dropWhile isWS l.reverse = [] := by
      have := congrArg List.reverse hr
      simpa [rtrim] using this
    rw [if_pos hr, h0]
    by_cases hc : isWS c
    · simp [List.dropWhile, hc]
    · simp [List.dropWhile, hc]
  · have h0 : ¬(List.dropWhile isWS l.reverse).isEmpty = true := by
      intro hcon
      rw [List.isEmpty_iff] at hcon
      exact hr (by simp [rtrim, hcon])
    rw [if_neg hr, if_neg h0, List.reverse_append]
    simp [rtrim]

theorem jsTrim_cons_ws {l : Str} {c : Char} (h : isWS c = true) :
    jsTrim (c :: l) = jsTrim l := by
  show ltrim (rtrim (c :: l)) = jsTrim l
  rw [rtrim_cons]
  by_cases hr : rtrim l = []
  · rw [if_pos hr, if_pos h]
    show ltrim [] = jsTrim l
    have : jsTrim l = ltrim (rtrim l) := rfl
    rw [this, hr]
  · rw [if_neg hr, ltrim_cons_ws h]
    rfl

theorem ltrim_idem (l : Str) : ltrim (ltrim l) = ltrim l := by
  cases hl : ltrim l with
  | nil => rfl
  | cons c t =>
    have hl' : List.dropWhile isWS l = c :: t := hl
    exact dropWhile_of_head_false rfl (dropWhile_head_false hl')

theorem rtrim_rtrim (l : Str) : rtrim (rtrim l) = rtrim l := by
  have h1 : (rtrim l).reverse = List.dropWhile isWS l.reverse := by
    simp [rtrim]
  show (List.dropWhile isWS (rtrim l).reverse).reverse = rtrim l
  rw [h1]
  cases hd : List.dropWhile isWS l.reverse with
  | nil => simp [rtrim, hd]
  | cons d ds =>
    rw [dropWhile_of_head_false rfl (dropWhile_head_false hd), ← hd, ← h1,
      List.reverse_reverse]

theorem rtrim_ltrim_of_rtrim_self {y : Str} (h : rtrim y = y) :
    rtrim (ltrim y) = ltrim y := by
  cases hly : (ltrim y).reverse with
  | nil =>
    have hnil : ltrim y = [] := by simpa using congrArg List.reverse hly
    simp [rtrim, hnil]
  | cons d ds =>
    have hws : isWS d = false := by
      by_cases hwd : isWS d
      · exfalso
        obtain ⟨a, ha, -⟩ := ltrim_decomp y
        have hyrev : y.reverse = d :: (ds ++ a.reverse) := by
          conv_lhs => rw [ha]
          rw [List.reverse_append, hly]
          simp
        have hdrop : List.dropWhile isWS y.reverse = y.reverse := by
          have h2 := congrArg List.reverse h
          rw [rtrim, List.reverse_reverse] at h2
          exact h2
        rw [hyrev, List.dropWhile_cons_of_pos hwd] at hdrop
        have hle := (List.dropWhile_suffix (l := ds ++ a.reverse) isWS).length_le
        rw [hdrop] at hle
        simp at hle
      · simp [hwd]
    show (List.dropWhile isWS (ltrim y).reverse).reverse = ltrim y
    rw [hly, dropWhile_of_head_false rfl hws, ← hly, List.reverse_reverse]

theorem jsTrim_idem (l : Str) : jsTrim (jsTrim l) = jsTrim l := by
  show ltrim (rtrim (ltrim (rtrim l))) = ltrim (rtrim l)
  rw [rtrim_ltrim_of_rtrim_self (rtrim_rtrim l), ltrim_idem]

/-! ### Lemmas about tokenisation -/

theorem tokensOf_nil : tokensOf [] = [] := by decide

theorem tokensOf_cons_ws {c : Char} (l : Str) (h : isWS c = true) :
    tokensOf (c :: l) = tokensOf l := by
  have hc : c ≠ ',' := by
    intro hcon
    subst hcon
    revert h
    decide
  simp only [tokensOf]
  rw [splitOnChar_cons_ne ',' c l hc]
  cases hs : splitOnChar ',' l with
  | nil => exact absurd hs (splitOnChar_ne_nil ',' l)
  | cons g gs =>
    simp only [List.headI, List.tail, List.map_cons]
    rw [jsTrim_cons_ws h]

theorem tokensOf_append_comma (a b : Str) :
    tokensOf (a ++ ',' :: b) = tokensOf a ++ tokensOf b := by
  simp only [tokensOf, splitOnChar_append_sep, List.map_append, List.filter_append]

theorem tokensOf_all_ws {l : Str} (h : ∀ c ∈ l, isWS c = true) : tokensOf l = [] := by
  simp only [tokensOf]
  rw [List.filter_eq_nil_iff]
  intro t ht
  simp only [List.mem_map] at ht
  obtain ⟨g, hg, rfl⟩ := ht
  have hgws : ∀ c ∈ g, isWS c = true := fun c hc =>
    h c (mem_of_mem_splitOnChar ',' l g hg c hc).1
  rw [(jsTrim_eq_nil_iff g).mpr hgws]
  simp

theorem tokensOf_ws_append {a : Str} (x : Str) (h : ∀ c ∈ a, isWS c = true) :
    tokensOf (a ++ x) = tokensOf x := by
  induction a with
  | nil => rfl
  | cons c a ih =>
    rw [List.cons_append, tokensOf_cons_ws _ (h c (List.mem_cons_self c a))]
    exact ih (fun d hd => h d (List.mem_cons_of_mem c hd))

theorem map_jsTrim_modifyLast {b : Str} (gs : List Str) (h : ∀ c ∈ b, isWS c = true) :
    (modifyLast (· ++ b) gs).map jsTrim = gs.map jsTrim := by
  induction gs with
  | nil => rfl
  | cons g rest ih =>
    cases rest with
    | nil => simp [modifyLast, jsTrim_append_ws h]
    | cons g' gs' =>
      simp only [modifyLast, List.map_cons] at ih ⊢
      rw [ih]

theorem tokensOf_append_ws {b : Str} (x : Str) (h : ∀ c ∈ b, isWS c = true) :
    tokensOf (x ++ b) = tokensOf x := by
  have hb : ∀ c ∈ b, c ≠ ',' := by
    intro c hc hcon
    subst hcon
    have hcw := h ',' hc
    revert hcw
    decide
  simp only [tokensOf]
  rw [splitOnChar_append_no_sep ',' x b hb, map_jsTrim_modifyLast _ h]

theorem tokensOf_jsTrim (l : Str) : tokensOf (jsTrim l) = tokensOf l := by
  obtain ⟨a, b, hl, haws, hbws⟩ := jsTrim_decomp l
  conv_rhs => rw [hl]
  rw [List.append_assoc, tokensOf_ws_append _ haws, tokensOf_append_ws _ hbws]

theorem mem_tokensOf {l t : Str} (ht : t ∈ tokensOf l) :
    t ≠ [] ∧ jsTrim t = t ∧ ∀ c ∈ t, c ≠ ',' := by
  simp only [tokensOf, List.mem_filter, List.mem_map] at ht
  obtain ⟨⟨g, hg, rfl⟩, hne⟩ := ht
  refine ⟨by simpa using hne, jsTrim_idem g, ?_⟩
  intro c hc
  exact (mem_of_mem_splitOnChar ',' l g hg c (mem_of_mem_jsTrim hc)).2

theorem tokensOf_single {t : Str} (hne : t ≠ []) (htrim : jsTrim t = t)
    (hfree : ∀ c ∈ t, c ≠ ',') : tokensOf t = [t] := by
  simp only [tokensOf]
  rw [splitOnChar_of_no_sep ',' t hfree]
  simp [htrim, hne]

theorem tokensOf_joinSep (ts : List Str)
    (h : ∀ t ∈ ts, t ≠ [] ∧ jsTrim t = t ∧ ∀ c ∈ t, c ≠ ',') :
    tokensOf (joinSep [ ',', ' ' ] ts) = ts := by
  induction ts with
  | nil => rfl
  | cons t rest ih =>
    obtain ⟨hne, htrim, hfree⟩ := h t (List.mem_cons_self t rest)
    cases rest with
    | nil => exact tokensOf_single hne htrim hfree
    | cons t' rest' =>
      have hstep : joinSep [ ',', ' ' ] (t :: t' :: rest') =
          t ++ ',' :: ' ' :: joinSep [ ',', ' ' ] (t' :: rest') := by
        rw [joinSep_cons_of_ne_nil _ _ _ (List.cons_ne_nil t' rest')]
        simp
      rw [hstep, tokensOf_append_comma, tokensOf_cons_ws _ (by decide),
        ih (fun x hx => h x (List.mem_cons_of_mem t hx)),
        tokensOf_single hne htrim hfree]
      rfl

/-! ### Small helper lemmas -/

theorem isEmpty_false_of_ne_nil {l : Str} (h : l ≠ []) : l.isEmpty = false := by
  cases l with
  | nil => exact absurd rfl h
  | cons c t => rfl

theorem globMatch_self (p : Str) : globMatch p p = true := by
  induction p with
  | nil => rfl
  | cons c ps ih =>
    by_cases hc : c = '*'
    · subst hc
      simp only [globMatch, beq_self_eq_true, if_pos]
      rw [List.any_eq_true]
      refine ⟨1, ?_, ?_⟩
      · rw [List.mem_range]
        simp
      · simp [ih, isLineTerm]
    · have hbc : (c == '*') = false := by simp [hc]
      simp [globMatch, hbc, ih]

theorem walkSuffixes_nil_map (now : Nat) (ls : List Str) :
    walkSuffixes now ls [] = (⟨false, none, 0⟩, []) := by
  induction ls with
  | nil => rfl
  | cons x rest ih =>
    have hg : ∀ d : Str, getExactTurnstileBypass now d [] = (⟨false, 0⟩, []) := by
      intro d
      simp [getExactTurnstileBypass, List.lookup]
    simp only [walkSuffixes, hg]
    simpa using ih

theorem joinSep_length_ge (s : Str) (ls la : List Str) (hla : la ≠ []) :
    (joinSep s la).length ≤ (joinSep s (ls ++ la)).length := by
  induction ls with
  | nil => simp
  | cons x ls ih =>
    have hne : ls ++ la ≠ [] := by
      intro hcon
      exact hla (List.append_eq_nil.mp hcon).2
    rw [List.cons_append, joinSep_cons_of_ne_nil _ _ _ hne]
    calc (joinSep s la).length ≤ (joinSep s (ls ++ la)).length := ih
    _ ≤ (x ++ s ++ joinSep s (ls ++ la)).length := by
      simp only [List.length_append]
      omega

theorem walkSuffixes_head_hit (now t0 : Nat) (a : Str) (g : Str) (gs : List Str)
    (hane : a ≠ []) (ht0 : t0 ≠ 0) (httl : ¬TURNSTILE_BYPASS_TTL_MS ≤ now - t0)
    (hjoin : joinSep [ '.' ] (g :: gs) = a) :
    walkSuffixes now (g :: gs) [(a, t0)] =
      (⟨true, some a, TURNSTILE_BYPASS_TTL_MS - (now - t0)⟩, [(a, t0)]) := by
  simp only [walkSuffixes]
  rw [hjoin]
  have hemp : a.isEmpty = false := isEmpty_false_of_ne_nil hane
  simp [getExactTurnstileBypass, hemp, List.lookup, ht0, httl]

theorem walkSuffixes_single_entry (now t0 : Nat) (a : Str) (ls : List Str)
    (hane : a ≠ []) (ht0 : t0 ≠ 0) (httl : ¬TURNSTILE_BYPASS_TTL_MS ≤ now - t0) :
    walkSuffixes now (ls ++ splitOnChar '.' a) [(a, t0)] =
      (⟨true, some a, TURNSTILE_BYPASS_TTL_MS - (now - t0)⟩, [(a, t0)]) := by
  induction ls with
  | nil =>
    rw [List.nil_append]
    cases hs : splitOnChar '.' a with
    | nil => exact absurd hs (splitOnChar_ne_nil '.' a)
    | cons g gs =>
      exact walkSuffixes_head_hit now t0 a g gs hane ht0 httl
        (by rw [← hs, joinSep_splitOnChar])
  | cons x ls ih =>
    have hrestne : ls ++ splitOnChar '.' a ≠ [] := by
      intro hcon
      exact splitOnChar_ne_nil '.' a (List.append_eq_nil.mp hcon).2
    have hJ : joinSep [ '.' ] (x :: (ls ++ splitOnChar '.' a)) =
        x ++ [ '.' ] ++ joinSep [ '.' ] (ls ++ splitOnChar '.' a) :=
      joinSep_cons_of_ne_nil _ _ _ hrestne
    have hJne : joinSep [ '.' ] (x :: (ls ++ splitOnChar '.' a)) ≠ [] := by
      rw [hJ]
      simp
    have hdomne : joinSep [ '.' ] (x :: (ls ++ splitOnChar '.' a)) ≠ a := by
      intro hcon
      have h2 := joinSep_length_ge [ '.' ] ls (splitOnChar '.' a)
        (splitOnChar_ne_nil '.' a)
      rw [joinSep_splitOnChar] at h2
      have h1 : a.length < (joinSep [ '.' ] (x :: (ls ++ splitOnChar '.' a))).length := by
        rw [hJ]
        simp only [List.length_append, List.length_cons, List.length_nil]
        omega
      rw [hcon] at h1
      omega
    have hget : getExactTurnstileBypass now
        (joinSep [ '.' ] (x :: (ls ++ splitOnChar '.' a))) [(a, t0)] =
        (⟨false, 0⟩, [(a, t0)]) := by
      have hbeq : (joinSep [ '.' ] (x :: (ls ++ splitOnChar '.' a)) == a) = false := by
        rw [beq_eq_false_iff_ne]
        exact hdomne
      simp [getExactTurnstileBypass, isEmpty_false_of_ne_nil hJne, List.lookup, hbeq]
    rw [List.cons_append]
    simp only [walkSuffixes]
    rw [hget]
    simpa using ih

/-! ### Claim theorems -/

/-- Claim C1: for every configuration, URL and feature identifier,
`shouldActivateFeature` returns false whenever the global enabled flag is
false, and returns false whenever the URL's hostname matches a pattern of
the global allowlist, regardless of all feature-level settings. -/
theorem shouldActivateFeature_global_precedence (cfg : Config) (url : Url)
    (feat : Str) :
    (cfg.enabled = false → shouldActivateFeature cfg url feat = false) ∧
    (∀ h, extractHostname url = some h →
      isWhitelisted h cfg.globalWhitelist = true →
      shouldActivateFeature cfg url feat = false) := by
  constructor
  · intro he
    simp [shouldActivateFeature, he]
  · intro h hurl hwl
    have hu : url = some h := hurl
    subst hu
    cases hlk : List.lookup feat cfg.features with
    | none => simp [shouldActivateFeature, hlk]
    | some fc =>
      cases hce : cfg.enabled <;> cases hfe : fc.enabled <;>
        cases hhe : h.isEmpty <;>
          simp [shouldActivateFeature, extractHostname, hlk, hce, hfe, hhe, hwl]

/-- Witness for claim C1: a globally disabled configuration, and an enabled
configuration whose global allowlist contains the hostname, both refuse to
activate the canvas feature. -/
theorem shouldActivateFeature_global_precedence_w :
    shouldActivateFeature ⟨false, [], [(str "canvas", ⟨true, none⟩)]⟩
        (some (str "x.com")) (str "canvas") = false ∧
    shouldActivateFeature ⟨true, str "example.com", [(str "canvas", ⟨true, none⟩)]⟩
        (some (str "example.com")) (str "canvas") = false :=
  ⟨(shouldActivateFeature_global_precedence _ _ _).1 rfl,
    (shouldActivateFeature_global_precedence _ _ _).2 (str "example.com") rfl
      (by decide)⟩

/-- Claim C2: a second `detect` for a hostname whose bypass entry is still
within the TTL is a no-op: it answers `{success, ignored}`, leaves the
timestamp map (hence the expiry clock) unchanged and triggers no
reapply/reload side effects. -/
theorem handleTurnstileDetectedMessage_idempotent (now t0 : Nat)
    (senderHostname requestHostname : Option Str) (h : Str) (m : TMap)
    (hres : resolveTabHostname senderHostname requestHostname = some h)
    (hne : h ≠ []) (hlk : List.lookup h m = some t0) (hpos : 0 < t0)
    (hle : t0 ≤ now) (httl : now - t0 < TURNSTILE_BYPASS_TTL_MS) :
    handleTurnstileDetectedMessage now senderHostname requestHostname m =
      (⟨true, true, none⟩, m, false) := by
  have hemp : h.isEmpty = false := isEmpty_false_of_ne_nil hne
  have ht0 : t0 ≠ 0 := Nat.pos_iff_ne_zero.mp hpos
  have hnotttl : ¬TURNSTILE_BYPASS_TTL_MS ≤ now - t0 := not_le.mpr httl
  simp [handleTurnstileDetectedMessage, hres, jsStrFalsy, hemp,
    getExactTurnstileBypass, hlk, ht0, hnotttl]

/-- Witness for claim C2: re-detection at 170 s for a hostname detected at
time 1 ms is ignored and the map is untouched. -/
theorem handleTurnstileDetectedMessage_idempotent_w :
    handleTurnstileDetectedMessage 170000 (some (str "a.com")) none
        [(str "a.com", 1)] = (⟨true, true, none⟩, [(str "a.com", 1)], false) :=
  handleTurnstileDetectedMessage_idempotent 170000 1 (some (str "a.com")) none
    (str "a.com") [(str "a.com", 1)] (by decide) (by decide) (by decide)
    (by decide) (by decide) (by decide)

/-- Claim C8: a challenge-detected request whose hostname cannot be resolved
(neither from the sender tab nor from the payload) is rejected with
`{success: false, error: "Missing hostname"}`, the bypass map is unchanged
and no side effects fire. -/
theorem handleTurnstileDetectedMessage_missing_hostname (now : Nat)
    (senderHostname requestHostname : Option Str) (m : TMap)
    (h : jsStrFalsy (resolveTabHostname senderHostname requestHostname) = true) :
    handleTurnstileDetectedMessage now senderHostname requestHostname m =
      (⟨false, false, some missingHostnameMsg⟩, m, false) := by
  simp [handleTurnstileDetectedMessage, h]

/-- Witness for claim C8: a request with no sender tab URL and no payload
hostname is rejected and the map is left as it was. -/
theorem handleTurnstileDetectedMessage_missing_hostname_w :
    handleTurnstileDetectedMessage 5 none none [(str "a.com", 1)] =
      (⟨false, false, some missingHostnameMsg⟩, [(str "a.com", 1)], false) :=
  handleTurnstileDetectedMessage_missing_hostname 5 none none
    [(str "a.com", 1)] (by decide)

/-- Claim C10: `removeProxyProfile` drops every profile with the given name
and every domain route referencing it, leaves the rest in place, and when
the removed profile is the active one it clears `activeProfile` and
additionally sets `proxy.enabled` to false. -/
theorem removeProxyProfile_spec (name : Str) (cfg : ProxyConfig) :
    ((removeProxyProfile name cfg).profiles
        = cfg.profiles.filter (fun p => !(p.name == name))) ∧
    ((removeProxyProfile name cfg).domainRoutes
        = cfg.domainRoutes.filter (fun r => !(r.profile == name))) ∧
    (cfg.activeProfile = some name →
      (removeProxyProfile name cfg).enabled = false ∧
      (removeProxyProfile name cfg).activeProfile = none) ∧
    (cfg.activeProfile ≠ some name →
      (removeProxyProfile name cfg).enabled = cfg.enabled ∧
      (removeProxyProfile name cfg).activeProfile = cfg.activeProfile) := by
  refine ⟨rfl, rfl, ?_, ?_⟩
  · intro hact
    simp [removeProxyProfile, hact]
  · intro hact
    have hbeq : (cfg.activeProfile == some name) = false :=
      beq_eq_false_iff_ne.mpr hact
    simp [removeProxyProfile, hbeq]

/-- Witness for claim C10: removing the active profile `"NYC"` deletes its
route, clears the active profile and disables the proxy; removing a
non-active name keeps `enabled` and `activeProfile`. -/
theorem removeProxyProfile_spec_w :
    ((removeProxyProfile (str "NYC")
        ⟨true, some (str "NYC"),
          [⟨str "NYC", str "1.2.3.4", 1080, str "socks5", true⟩],
          [⟨str "*.x.com", str "NYC"⟩]⟩).enabled = false ∧
      (removeProxyProfile (str "NYC")
        ⟨true, some (str "NYC"),
          [⟨str "NYC", str "1.2.3.4", 1080, str "socks5", true⟩],
          [⟨str "*.x.com", str "NYC"⟩]⟩).activeProfile = none) ∧
    ((removeProxyProfile (str "NYC")
        ⟨true, some (str "LA"), [], []⟩).enabled = true ∧
      (removeProxyProfile (str "NYC")
        ⟨true, some (str "LA"), [], []⟩).activeProfile = some (str "LA")) :=
  ⟨(removeProxyProfile_spec (str "NYC") _).2.2.1 rfl,
    (removeProxyProfile_spec (str "NYC")
      ⟨true, some (str "LA"), [], []⟩).2.2.2 (by decide)⟩


/-- Claim C3: for a hostname detected at `t0`, a status query at or past the
TTL reports inactive and purges the entry (other queries are unaffected by
the purged entry), while a query before the TTL reports active with
`remainingSeconds = ceil((TTL - elapsed) / 1000)`. -/
theorem handleCheckTurnstileStatusMessage_ttl (h : Str) (t0 now : Nat)
    (hne : h ≠ []) (hpos : 0 < t0) (hle : t0 ≤ now) :
    (TURNSTILE_BYPASS_TTL_MS ≤ now - t0 →
      handleCheckTurnstileStatusMessage now none (some h) [(h, t0)] =
        (⟨false, none⟩, [])) ∧
    (now - t0 < TURNSTILE_BYPASS_TTL_MS →
      handleCheckTurnstileStatusMessage now none (some h) [(h, t0)] =
        (⟨true, some ((TURNSTILE_BYPASS_TTL_MS - (now - t0) + 999) / 1000)⟩,
          [(h, t0)])) ∧
    (TURNSTILE_BYPASS_TTL_MS ≤ now - t0 →
      ∀ (rest : TMap) (sh rh : Option Str),
        jsStrFalsy (resolveTabHostname sh rh) = false →
        handleCheckTurnstileStatusMessage now sh rh ((h, t0) :: rest) =
          handleCheckTurnstileStatusMessage now sh rh rest) := by
  have hemp : h.isEmpty = false := isEmpty_false_of_ne_nil hne
  refine ⟨?_, ?_, ?_⟩
  · intro hexp
    have hlt : ¬(now - t0 < TURNSTILE_BYPASS_TTL_MS) := not_lt.mpr hexp
    have hprune : pruneExpiredTurnstileEntries now [(h, t0)] = [] := by
      simp [pruneExpiredTurnstileEntries, hlt]
    simp [handleCheckTurnstileStatusMessage, getTurnstileBypassIncludingParents,
      resolveTabHostname, jsStrFalsy, hemp, hprune, walkSuffixes_nil_map]
  · intro httl
    have hprune : pruneExpiredTurnstileEntries now [(h, t0)] = [(h, t0)] := by
      simp [pruneExpiredTurnstileEntries, httl]
    have hwalk := walkSuffixes_single_entry now t0 h [] hne
      (Nat.pos_iff_ne_zero.mp hpos) (not_le.mpr httl)
    rw [List.nil_append] at hwalk
    simp [handleCheckTurnstileStatusMessage, getTurnstileBypassIncludingParents,
      resolveTabHostname, jsStrFalsy, hemp, hprune, hwalk]
  · intro hexp rest sh rh hval
    have hlt : ¬(now - t0 < TURNSTILE_BYPASS_TTL_MS) := not_lt.mpr hexp
    have hprune : pruneExpiredTurnstileEntries now ((h, t0) :: rest) =
        pruneExpiredTurnstileEntries now rest := by
      simp [pruneExpiredTurnstileEntries, hlt]
    simp only [handleCheckTurnstileStatusMessage,
      getTurnstileBypassIncludingParents, hval, hprune, Bool.false_eq_true,
      if_false]

/-- Witness for claim C3: `detect("a.com")` at 1 ms; a query at elapsed
179 s is active with 1 second remaining; a query at elapsed 181 s is
inactive and leaves an empty map. -/
theorem handleCheckTurnstileStatusMessage_ttl_w :
    handleCheckTurnstileStatusMessage 179001 none (some (str "a.com"))
        [(str "a.com", 1)] = (⟨true, some 1⟩, [(str "a.com", 1)]) ∧
    handleCheckTurnstileStatusMessage 181001 none (some (str "a.com"))
        [(str "a.com", 1)] = (⟨false, none⟩, []) := by
  constructor
  · exact ((handleCheckTurnstileStatusMessage_ttl (str "a.com") 1 179001
      (by decide) (by decide) (by decide)).2.1 (by decide)).trans (by decide)
  · exact (handleCheckTurnstileStatusMessage_ttl (str "a.com") 1 181001
      (by decide) (by decide) (by decide)).1 (by decide)

/-- Claim C4: a bypass query for a subdomain of a hostname with an active,
unexpired detection walks the label-suffixes from most specific to root and
reports active with `matchedDomain` the detected ancestor and that
ancestor's remaining TTL. -/
theorem getTurnstileBypassIncludingParents_ancestor (p a : Str) (t0 now : Nat)
    (hane : a ≠ []) (hpos : 0 < t0) (hle : t0 ≤ now)
    (httl : now - t0 < TURNSTILE_BYPASS_TTL_MS) :
    getTurnstileBypassIncludingParents now (some (p ++ '.' :: a)) [(a, t0)] =
      (⟨true, some a, TURNSTILE_BYPASS_TTL_MS - (now - t0)⟩, [(a, t0)]) := by
  have hne : p ++ '.' :: a ≠ [] := by simp
  have hemp : (p ++ '.' :: a).isEmpty = false := isEmpty_false_of_ne_nil hne
  have hprune : pruneExpiredTurnstileEntries now [(a, t0)] = [(a, t0)] := by
    simp [pruneExpiredTurnstileEntries, httl]
  simp only [getTurnstileBypassIncludingParents, jsStrFalsy, hemp,
    Bool.false_eq_true, if_false, Option.getD_some, hprune,
    splitOnChar_append_sep '.' p a]
  exact walkSuffixes_single_entry now t0 a (splitOnChar '.' p) hane
    (Nat.pos_iff_ne_zero.mp hpos) (not_le.mpr httl)

/-- Witness for claim C4: `detect("example.com")` then a query for
`"sub.example.com"` 999 ms later is active with matched domain
`"example.com"` and 179001 ms remaining. -/
theorem getTurnstileBypassIncludingParents_ancestor_w :
    getTurnstileBypassIncludingParents 1000
        (some (str "sub" ++ '.' :: str "example.com"))
        [(str "example.com", 1)] =
      (⟨true, some (str "example.com"), 179001⟩, [(str "example.com", 1)]) :=
  (getTurnstileBypassIncludingParents_ancestor (str "sub") (str "example.com")
    1 1000 (by decide) (by decide) (by decide) (by decide)).trans (by decide)


/-- Claim C9: merging a user allowlist with the default allowlist keeps all
user entries first in their original order and appends only the default
entries not already present case-insensitively; in particular merging user
`"foo.com"` with default `"foo.com, bar.com"` yields `"foo.com, bar.com"`. -/
theorem mergeWhitelists_spec :
    (∀ d u, tokensOf (mergeWhitelists d u) =
      tokensOf u ++ (tokensOf d).filter (fun e =>
        !((tokensOf u).any (fun x => sLower x == sLower e)))) ∧
    mergeWhitelists (str "foo.com, bar.com") (str "foo.com") =
      str "foo.com, bar.com" := by
  constructor
  · intro d u
    simp only [mergeWhitelists]
    apply tokensOf_joinSep
    intro t ht
    rcases List.mem_append.mp ht with h1 | h1
    · exact mem_tokensOf h1
    · exact mem_tokensOf (List.mem_of_mem_filter h1)
  · decide

/-- Counterexample for claim C5: the pattern `"*localhost*"` has a `*` in a
generic position, its compiled anchored regex matches `"localhost"`, yet
`DomainFilter.matchesPattern` returns false — the claimed iff with the
regex semantics fails. -/
theorem matchesPattern_generic_wildcard_cex :
    (sLower (str "*localhost*")).contains '*' = true ∧
    List.isSuffixOf [ '.', '*' ] (sLower (str "*localhost*")) = false ∧
    List.isPrefixOf [ '*', '.' ] (sLower (str "*localhost*")) = false ∧
    hasOnlyLeadingWildcard (sLower (str "*localhost*")) = false ∧
    globMatch (sLower (str "*localhost*")) (sLower (str "localhost")) = true ∧
    matchesPattern (str "localhost") (str "*localhost*") = false := by decide

/-- Claim C5 amended: the generic-wildcard rule is implemented by the
injector content script's matcher, not by `DomainFilter.matchesPattern`:
for every hostname and pattern whose lowercase form contains `*`, does not
end in `.*`, does not start with `*.` and is not a lone-leading-`*`
pattern, the injector's per-pattern test returns true iff the lowercased
hostname matches the full-string-anchored regex obtained by escaping all
metacharacters except `*` and replacing each `*` with `.*`. -/
theorem injectorPatternMatches_generic_wildcard (hostname pat : Str)
    (hstar : (sLower pat).contains '*' = true)
    (hend : List.isSuffixOf [ '.', '*' ] (sLower pat) = false)
    (hdot : List.isPrefixOf [ '*', '.' ] (sLower pat) = false)
    (holw : hasOnlyLeadingWildcard (sLower pat) = false) :
    injectorPatternMatches hostname pat =
      globMatch (sLower pat) (sLower hostname) := by
  simp only [injectorPatternMatches, hstar, hend, hdot, holw, Bool.false_and,
    Bool.and_false, Bool.or_false, Bool.false_or, Bool.not_false, Bool.true_and,
    Bool.and_true, Bool.false_eq_true, if_false, Bool.not_true]
  cases heq : (sLower hostname == sLower pat) with
  | false => simp
  | true =>
    have heq2 : sLower hostname = sLower pat := eq_of_beq heq
    simp [heq2, globMatch_self]

/-- Witness for the amended claim C5: pattern `"*localhost*"` against
hostname `"mylocalhost"` goes through the regex branch and matches. -/
theorem injectorPatternMatches_generic_wildcard_w :
    injectorPatternMatches (str "mylocalhost") (str "*localhost*") =
      globMatch (sLower (str "*localhost*")) (sLower (str "mylocalhost")) ∧
    globMatch (sLower (str "*localhost*")) (sLower (str "mylocalhost")) = true :=
  ⟨injectorPatternMatches_generic_wildcard (str "mylocalhost")
      (str "*localhost*") (by decide) (by decide) (by decide) (by decide),
    by decide⟩


/-- Counterexample for claim C6: with allowlist `"*.example.com"` the
`*.`+hostname token is present, yet `addDomainToWhitelist` is not a no-op:
it appends a duplicate wildcard entry. -/
theorem addDomainToWhitelist_wildcard_cex :
    tokensOf (str "*.example.com") = [str "*.example.com"] ∧
    addDomainToWhitelist (str "example.com") (str "*.example.com") =
      str "*.example.com, *.example.com" := by decide

/-- Claim C6 amended: `addDomainToWhitelist` is a no-op exactly when the
hostname is empty or already present as an exact token (case-insensitive);
the `*.`+hostname form is not checked, so otherwise the wildcard entry is
appended even when it is already in the list. -/
theorem addDomainToWhitelist_noop_iff (domain ws : Str) :
    addDomainToWhitelist domain ws = ws ↔
      (domain = [] ∨ isDomainInWhitelist domain ws = true) := by
  constructor
  · intro heq
    by_contra hcon
    push_neg at hcon
    obtain ⟨hdne, hinwne⟩ := hcon
    have hinw : isDomainInWhitelist domain ws = false := by
      cases hi : isDomainInWhitelist domain ws
      · rfl
      · exact absurd hi hinwne
    have hde : domain.isEmpty = false := isEmpty_false_of_ne_nil hdne
    simp only [addDomainToWhitelist, hde, hinw, Bool.false_eq_true,
      if_false] at heq
    cases hws : (ws.isEmpty || (jsTrim ws).isEmpty) with
    | true =>
      simp only [hws, if_true] at heq
      have hwsall : ∀ c ∈ ws, isWS c = true := by
        have hws2 := hws
        rw [Bool.or_eq_true] at hws2
        rcases hws2 with h1 | h1
        · have hwnil : ws = [] := List.isEmpty_iff.mp h1
          subst hwnil
          intro c hc
          simp at hc
        · exact (jsTrim_eq_nil_iff ws).mp (List.isEmpty_iff.mp h1)
      have hstar : '*' ∈ ws := by
        rw [← heq]
        exact List.mem_cons_self _ _
      have hcontra := hwsall '*' hstar
      revert hcontra
      decide
    | false =>
      simp only [hws, Bool.false_eq_true, if_false] at heq
      have hjne : jsTrim ws ≠ [] := by
        intro hcon2
        have h1 : (jsTrim ws).isEmpty = true := by simp [hcon2]
        rw [h1, Bool.or_true] at hws
        exact Bool.true_eq_false.mp hws
      obtain ⟨b, hb, hbws⟩ := rtrim_decomp ws
      obtain ⟨a, ha, haws⟩ := ltrim_decomp (rtrim ws)
      have hj : ltrim (rtrim ws) = jsTrim ws := rfl
      rw [hj] at ha
      have hws' : ws = a ++ jsTrim ws ++ b := by
        conv_lhs => rw [hb, ha]
      cases ha2 : a with
      | nil =>
        rw [ha2, List.nil_append] at hws'
        conv_rhs at heq => rw [hws']
        have hb2 : (',' :: ' ' :: '*' :: '.' :: domain : Str) = b :=
          List.append_cancel_left heq
        have hcomma := hbws ',' (by rw [← hb2]; exact List.mem_cons_self _ _)
        revert hcomma
        decide
      | cons c a' =>
        have hcws : isWS c = true :=
          haws c (by rw [ha2]; exact List.mem_cons_self _ _)
        cases hjt : jsTrim ws with
        | nil => exact hjne hjt
        | cons d t =>
          have hd : isWS d = false := jsTrim_head_not_ws hjt
          rw [ha2, hjt] at hws'
          rw [hjt] at heq
          rw [hws'] at heq
          simp only [List.cons_append, List.append_assoc] at heq
          injection heq with h1 h2
          rw [h1] at hd
          rw [hcws] at hd
          exact Bool.true_eq_false.mp hd
  · intro hd
    rcases hd with hd | hd
    · subst hd
      simp [addDomainToWhitelist]
    · simp [addDomainToWhitelist, hd]

/-- Counterexample for claim C7: with allowlist `"example.com"`, adding
`"example.com"` is a no-op but removing it deletes the pre-existing token,
so the round trip loses the original entry instead of restoring it. -/
theorem addRemoveDomain_cex :
    removeDomainFromWhitelist (str "example.com")
        (addDomainToWhitelist (str "example.com") (str "example.com")) = [] ∧
    tokensOf (str "example.com") = [str "example.com"] ∧
    tokensOf [] = [] := by decide

/-- Claim C7 amended: for a nonempty hostname without commas or whitespace,
if the allowlist contains neither the bare hostname nor the `*.`+hostname
token (case-insensitively), then `addDomainToWhitelist` followed by
`removeDomainFromWhitelist` restores the original token sequence; when one
of those tokens is already present the removal also deletes it (see the
counterexample). -/
theorem addRemoveDomain_roundtrip (domain ws : Str)
    (hne : domain ≠ [])
    (hchars : ∀ c ∈ domain, c ≠ ',' ∧ isWS c = false)
    (htok : ∀ t ∈ tokensOf ws, sLower t ≠ sLower domain ∧
      sLower t ≠ '*' :: '.' :: sLower domain) :
    tokensOf (removeDomainFromWhitelist domain
      (addDomainToWhitelist domain ws)) = tokensOf ws := by
  have hde : domain.isEmpty = false := isEmpty_false_of_ne_nil hne
  have hinw : isDomainInWhitelist domain ws = false := by
    simp only [isDomainInWhitelist]
    by_cases hcond : (ws.isEmpty || domain.isEmpty) = true
    · simp [hcond]
    · rw [if_neg hcond]
      rw [List.any_eq_false]
      intro d hd
      have h1 := (htok d hd).1
      simp [h1]
  have hentryne : ('*' :: '.' :: domain : Str) ≠ [] := by simp
  have hentrytrim : jsTrim ('*' :: '.' :: domain) = '*' :: '.' :: domain := by
    apply jsTrim_eq_self
    intro c hc
    rcases List.mem_cons.mp hc with rfl | hc
    · decide
    rcases List.mem_cons.mp hc with rfl | hc
    · decide
    · exact (hchars c hc).2
  have hentryfree : ∀ c ∈ ('*' :: '.' :: domain : Str), c ≠ ',' := by
    intro c hc
    rcases List.mem_cons.mp hc with rfl | hc
    · decide
    rcases List.mem_cons.mp hc with rfl | hc
    · decide
    · exact (hchars c hc).1
  have hlowstar : Char.toLower '*' = '*' := by decide
  have hlowdot : Char.toLower '.' = '.' := by decide
  have hlowentry : sLower ('*' :: '.' :: domain) = '*' :: '.' :: sLower domain := by
    simp [sLower, hlowstar, hlowdot]
  have hfilter_entry : (('*' :: '.' :: domain : Str) ::
        ([] : List Str)).filter (fun d => !(sLower d == sLower domain) &&
        !(sLower d == '*' :: '.' :: sLower domain)) = [] := by
    simp [hlowentry]
  cases hws : (ws.isEmpty || (jsTrim ws).isEmpty) with
  | true =>
    have htws : tokensOf ws = [] := by
      have hws2 := hws
      rw [Bool.or_eq_true] at hws2
      rcases hws2 with h1 | h1
      · rw [List.isEmpty_iff.mp h1]
        exact tokensOf_nil
      · exact tokensOf_all_ws ((jsTrim_eq_nil_iff ws).mp (List.isEmpty_iff.mp h1))
    have haddv : addDomainToWhitelist domain ws = '*' :: '.' :: domain := by
      simp [addDomainToWhitelist, hde, hinw, hws]
    rw [haddv, htws]
    simp only [removeDomainFromWhitelist, hde, isEmpty_false_of_ne_nil hentryne,
      Bool.or_self, Bool.false_eq_true, if_false]
    rw [tokensOf_single hentryne hentrytrim hentryfree, hfilter_entry]
    exact tokensOf_nil
  | false =>
    have haddv : addDomainToWhitelist domain ws =
        jsTrim ws ++ ( ',' :: ' ' :: '*' :: '.' :: domain) := by
      simp [addDomainToWhitelist, hde, hinw, hws]
    have htadd : tokensOf (addDomainToWhitelist domain ws) =
        tokensOf ws ++ [('*' :: '.' :: domain : Str)] := by
      rw [haddv, tokensOf_append_comma (jsTrim ws) (' ' :: '*' :: '.' :: domain),
        tokensOf_jsTrim, tokensOf_cons_ws _ (by decide),
        tokensOf_single hentryne hentrytrim hentryfree]
    have haddne : addDomainToWhitelist domain ws ≠ [] := by
      rw [haddv]
      simp
    simp only [removeDomainFromWhitelist, hde, isEmpty_false_of_ne_nil haddne,
      Bool.or_self, Bool.false_eq_true, if_false]
    rw [htadd, List.filter_append]
    have hkeep : (tokensOf ws).filter (fun d => !(sLower d == sLower domain) &&
        !(sLower d == '*' :: '.' :: sLower domain)) = tokensOf ws := by
      rw [List.filter_eq_self]
      intro d hd
      obtain ⟨h1, h2⟩ := htok d hd
      simp [h1, h2]
    rw [hkeep, hfilter_entry, List.append_nil]
    exact tokensOf_joinSep _ (fun t ht => mem_tokensOf ht)

/-- Witness for the amended claim C7: adding and removing `"b.com"` on the
allowlist `"a.com"` restores the original token list. -/
theorem addRemoveDomain_roundtrip_w :
    tokensOf (removeDomainFromWhitelist (str "b.com")
      (addDomainToWhitelist (str "b.com") (str "a.com"))) =
      tokensOf (str "a.com") :=
  addRemoveDomain_roundtrip (str "b.com") (str "a.com") (by decide) (by decide)
    (by decide)


end StealthGuard
